import Mathlib

/-!
Shallow embedding of the ScanMate chess-board detection pipeline
(`backend/core/board/detector.py`), together with theorems checking the
repository's specification against the code.

Conventions of the embedding:
* pixel coordinates and contour measurements are rationals (`ℚ`);
* images are total pixel grids with explicit height/width
  (numpy arrays indexed `[y, x]`);
* the external OpenCV / MLX capabilities (contour extraction, the
  perspective transform kernel, `cv2.resize`, the piece-classification
  model together with its class-name table) are opaque parameters
  collected in `PipelineEnv`; every piece of control flow written in the
  repository itself is embedded explicitly;
* Python functions that can raise are embedded with `Option`/`Except`.
-/

namespace ScanMate

/-- A 2-D point, `(x, y)` as in OpenCV contour coordinates. -/
abbrev Point := ℚ × ℚ

/-- Comparison on vertical position, used by `np.argsort(corners[:, 1])`. -/
def yLE (p q : Point) : Prop := p.2 ≤ q.2

/-- Comparison on horizontal position, used by `np.argsort(pts[:, 0])`. -/
def xLE (p q : Point) : Prop := p.1 ≤ q.1

instance : DecidableRel yLE := fun p q => inferInstanceAs (Decidable (p.2 ≤ q.2))

instance : DecidableRel xLE := fun p q => inferInstanceAs (Decidable (p.1 ≤ q.1))

instance : IsTotal Point yLE := ⟨fun p q => le_total p.2 q.2⟩

instance : IsTrans Point yLE := ⟨fun _ _ _ h h' => le_trans h h'⟩

instance : IsTotal Point xLE := ⟨fun p q => le_total p.1 q.1⟩

instance : IsTrans Point xLE := ⟨fun _ _ _ h h' => le_trans h h'⟩

/-- Embeds `BoardDetector._order_corners`: sort the four corner points by vertical
position, split into the top two and bottom two, sort each pair by
horizontal position, and return `[top-left, top-right, bottom-right,
bottom-left]`.  The final `| _, _ => []` arm is unreachable for 4-point
input (the Python source is typed on a 4×2 array). -/
def orderCorners (corners : List Point) : List Point :=
  let sortedByY := List.insertionSort yLE corners
  match List.insertionSort xLE (sortedByY.take 2),
        List.insertionSort xLE (sortedByY.drop 2) with
  | [topLeft, topRight], [bottomLeft, bottomRight] =>
      [topLeft, topRight, bottomRight, bottomLeft]
  | _, _ => []

/-- Sorting a two-element list just orders the pair. -/
lemma insertionSort_pair (r : Point → Point → Prop) [DecidableRel r] (a b : Point) :
    List.insertionSort r [a, b] = if r a b then [a, b] else [b, a] := by
  simp [List.insertionSort, List.orderedInsert]

/-- Core property of `_order_corners` on any 4-point input: the output is a
permutation `[tl, tr, br, bl]` of the input with `tl`, `tr` ordered by `x`,
`bl`, `br` ordered by `x`, and both top points no lower (in `y`) than both
bottom points. -/
lemma orderCorners_props (corners : List Point) (h4 : corners.length = 4) :
    (orderCorners corners).Perm corners ∧
    ∃ tl tr br bl, orderCorners corners = [tl, tr, br, bl] ∧
      tl.1 ≤ tr.1 ∧ bl.1 ≤ br.1 ∧
      (∀ p ∈ [tl, tr], ∀ q ∈ [br, bl], p.2 ≤ q.2) := by
  have hperm : (List.insertionSort yLE corners).Perm corners :=
    List.perm_insertionSort yLE corners
  have hsorted : List.Sorted yLE (List.insertionSort yLE corners) :=
    List.sorted_insertionSort yLE corners
  have hlen : (List.insertionSort yLE corners).length = 4 := by
    rw [hperm.length_eq, h4]
  rcases hs : List.insertionSort yLE corners with _ | ⟨a, _ | ⟨b, _ | ⟨c, _ | ⟨d, _ | ⟨e, t⟩⟩⟩⟩⟩ <;>
    rw [hs] at hlen <;> simp at hlen
  rw [hs] at hperm hsorted
  have h1 := List.sorted_cons.mp hsorted
  have h2 := List.sorted_cons.mp h1.2
  have hac : a.2 ≤ c.2 := h1.1 c (by simp)
  have had : a.2 ≤ d.2 := h1.1 d (by simp)
  have hbc : b.2 ≤ c.2 := h2.1 c (by simp)
  have hbd : b.2 ≤ d.2 := h2.1 d (by simp)
  have horder : orderCorners corners =
      match List.insertionSort xLE [a, b], List.insertionSort xLE [c, d] with
      | [topLeft, topRight], [bottomLeft, bottomRight] =>
          [topLeft, topRight, bottomRight, bottomLeft]
      | _, _ => [] := by
    unfold orderCorners
    rw [hs]
    rfl
  rw [insertionSort_pair xLE a b, insertionSort_pair xLE c d] at horder
  have habcd : ([a, b, c, d] : List Point).Perm corners := hperm
  by_cases hab : xLE a b <;> by_cases hcd : xLE c d
  · rw [if_pos hab, if_pos hcd] at horder
    refine ⟨?_, a, b, d, c, horder, hab, hcd, ?_⟩
    · rw [horder]
      exact (List.Perm.cons a (List.Perm.cons b (List.Perm.swap c d []))).trans habcd
    · intro p hp q hq
      simp only [List.mem_cons, List.not_mem_nil, or_false] at hp hq
      rcases hp with rfl | rfl <;> rcases hq with rfl | rfl <;> assumption
  · rw [if_pos hab, if_neg hcd] at horder
    refine ⟨?_, a, b, c, d, horder, hab, le_of_not_le hcd, ?_⟩
    · rw [horder]
      exact habcd
    · intro p hp q hq
      simp only [List.mem_cons, List.not_mem_nil, or_false] at hp hq
      rcases hp with rfl | rfl <;> rcases hq with rfl | rfl <;> assumption
  · rw [if_neg hab, if_pos hcd] at horder
    refine ⟨?_, b, a, d, c, horder, le_of_not_le hab, hcd, ?_⟩
    · rw [horder]
      exact ((List.Perm.swap a b [d, c]).trans
        (List.Perm.cons a (List.Perm.cons b (List.Perm.swap c d [])))).trans habcd
    · intro p hp q hq
      simp only [List.mem_cons, List.not_mem_nil, or_false] at hp hq
      rcases hp with rfl | rfl <;> rcases hq with rfl | rfl <;> assumption
  · rw [if_neg hab, if_neg hcd] at horder
    refine ⟨?_, b, a, c, d, horder, le_of_not_le hab, le_of_not_le hcd, ?_⟩
    · rw [horder]
      exact (List.Perm.swap a b [c, d]).trans habcd
    · intro p hp q hq
      simp only [List.mem_cons, List.not_mem_nil, or_false] at hp hq
      rcases hp with rfl | rfl <;> rcases hq with rfl | rfl <;> assumption

/-- C9: `_order_corners` is total on every 4-point input and returns a
permutation of its input in canonical `[TL, TR, BR, BL]` order: the first
two output points are input points of minimal vertical position ordered by
increasing `x`, position 3 carries the larger-`x` bottom point and
position 4 the smaller-`x` bottom point. -/
theorem order_corners_permutation_and_order (corners : List Point)
    (h4 : corners.length = 4) :
    (orderCorners corners).Perm corners ∧
    ∃ tl tr br bl, orderCorners corners = [tl, tr, br, bl] ∧
      tl.1 ≤ tr.1 ∧ bl.1 ≤ br.1 ∧
      (∀ p ∈ [tl, tr], ∀ q ∈ [br, bl], p.2 ≤ q.2) :=
  orderCorners_props corners h4

/-- Witness for C9 at the concrete corner set `[(3,4), (0,0), (3,0), (0,4)]`. -/
theorem order_corners_permutation_and_order_witness :
    (orderCorners [((3 : ℚ), (4 : ℚ)), (0, 0), (3, 0), (0, 4)]).Perm
        [((3 : ℚ), (4 : ℚ)), (0, 0), (3, 0), (0, 4)] ∧
    ∃ tl tr br bl,
      orderCorners [((3 : ℚ), (4 : ℚ)), (0, 0), (3, 0), (0, 4)] = [tl, tr, br, bl] ∧
      tl.1 ≤ tr.1 ∧ bl.1 ≤ br.1 ∧
      (∀ p ∈ [tl, tr], ∀ q ∈ [br, bl], p.2 ≤ q.2) :=
  order_corners_permutation_and_order [((3 : ℚ), (4 : ℚ)), (0, 0), (3, 0), (0, 4)]
    (by rfl)

/-! ## Contours and `find_corners` -/

/-- A contour as delivered by `cv2.findContours`, abstracted by the three
observations the repository makes of it: its enclosed area
(`cv2.contourArea`), its perimeter (`cv2.arcLength(contour, True)`), and
the polygon `cv2.approxPolyDP(contour, eps, True)` computed at a given
tolerance `eps`. -/
structure Contour where
  area : ℚ
  peri : ℚ
  approxAt : ℚ → List Point

/-- Descending order on contour area, as in
`sorted(contours, key=cv2.contourArea, reverse=True)`. -/
def areaDesc (a b : Contour) : Prop := b.area ≤ a.area

instance : DecidableRel areaDesc := fun a b => inferInstanceAs (Decidable (b.area ≤ a.area))

instance : IsTotal Contour areaDesc := ⟨fun a b => le_total b.area a.area⟩

instance : IsTrans Contour areaDesc := ⟨fun _ _ _ h h' => le_trans h' h⟩

/-- Embeds `cv2.approxPolyDP(contour, 0.02 * peri, True)` where
`peri = cv2.arcLength(contour, True)`. -/
def approxPoly (c : Contour) : List Point := c.approxAt (2 / 100 * c.peri)

/-- The acceptance test of the candidate loop:
`len(approx) == 4 and cv2.contourArea(contour) > 10000`. -/
def isBoardCandidate (c : Contour) : Bool :=
  decide ((approxPoly c).length = 4) && decide (c.area > 10000)

/-- The candidate contours examined by the loop: the input contours sorted
by area descending, truncated to the first 10 (`contours[:10]`). -/
def candidateContours (contours : List Contour) : List Contour :=
  (List.insertionSort areaDesc contours).take 10

/-- The raw (unordered) corner search of `find_corners`: the first
candidate passing `isBoardCandidate` yields its 4-vertex approximation
(`corners = approx.reshape(4, 2)`), otherwise `None`. -/
def findCornersRaw (contours : List Contour) : Option (List Point) :=
  ((candidateContours contours).find? isBoardCandidate).map approxPoly

/-- Embeds `BoardDetector.find_corners` restricted to its decision logic: the
empty-contour early return, the candidate search, and the canonical
reordering `_order_corners` on success.  (The debug image drawn alongside
is diagnostic only and not modelled.) -/
def findCornersFrom (contours : List Contour) : Option (List Point) :=
  if contours.isEmpty then none
  else (findCornersRaw contours).map orderCorners

/-- The Boolean candidate test as a proposition. -/
lemma isBoardCandidate_iff (c : Contour) :
    isBoardCandidate c = true ↔ (approxPoly c).length = 4 ∧ c.area > 10000 := by
  simp [isBoardCandidate]

/-- C2: the candidate selection of `find_corners`.  The examined list is
the 10 largest contours in descending area order (a prefix of an
area-descending permutation of the input); the search reports `none`
exactly when no examined candidate has a 4-vertex approximation at
tolerance `2%` of its perimeter together with area above 10000; and a
successful raw search returns the approximation of the first qualifying
candidate, every earlier examined candidate failing the test. -/
theorem find_corners_candidate_selection (contours : List Contour) :
    (candidateContours contours).length ≤ 10 ∧
    (∃ rest, (candidateContours contours ++ rest).Perm contours ∧
       List.Sorted areaDesc (candidateContours contours ++ rest)) ∧
    (findCornersFrom contours = none ↔
       ∀ c ∈ candidateContours contours,
         ¬((approxPoly c).length = 4 ∧ c.area > 10000)) ∧
    (∀ pts, findCornersRaw contours = some pts →
       ∃ pre post c, candidateContours contours = pre ++ c :: post ∧
         (approxPoly c).length = 4 ∧ c.area > 10000 ∧ pts = approxPoly c ∧
         ∀ c' ∈ pre, ¬((approxPoly c').length = 4 ∧ c'.area > 10000)) := by
  refine ⟨?_, ?_, ?_, ?_⟩
  · exact (List.length_take 10 _).le.trans (by simp)
  · refine ⟨(List.insertionSort areaDesc contours).drop 10, ?_, ?_⟩
    · rw [candidateContours, List.take_append_drop]
      exact List.perm_insertionSort areaDesc contours
    · rw [candidateContours, List.take_append_drop]
      exact List.sorted_insertionSort areaDesc contours
  · constructor
    · intro hnone c hc hcand
      rw [findCornersFrom] at hnone
      by_cases hemp : contours.isEmpty
      · rw [List.isEmpty_iff] at hemp
        subst hemp
        simp [candidateContours, List.insertionSort] at hc
      · rw [if_neg hemp, Option.map_eq_none', findCornersRaw,
          Option.map_eq_none', List.find?_eq_none] at hnone
        exact hnone c hc ((isBoardCandidate_iff c).mpr hcand)
    · intro hall
      rw [findCornersFrom]
      by_cases hemp : contours.isEmpty
      · rw [if_pos hemp]
      · rw [if_neg hemp, Option.map_eq_none', findCornersRaw,
          Option.map_eq_none', List.find?_eq_none]
        intro c hc hcand
        exact hall c hc ((isBoardCandidate_iff c).mp hcand)
  · intro pts hpts
    rw [findCornersRaw, Option.map_eq_some'] at hpts
    obtain ⟨c, hfind, hc⟩ := hpts
    rw [List.find?_eq_some] at hfind
    obtain ⟨hcand, pre, post, hsplit, hpre⟩ := hfind
    obtain ⟨h4, harea⟩ := (isBoardCandidate_iff c).mp hcand
    refine ⟨pre, post, c, hsplit, h4, harea, hc.symm, ?_⟩
    intro c' hc' hcand'
    have := hpre c' hc'
    rw [(isBoardCandidate_iff c').mpr hcand'] at this
    simp at this

/-- C3: whenever `find_corners` succeeds, its result is `_order_corners`
applied to the 4-vertex approximation of the accepted candidate, hence a
permutation of those 4 points in canonical `[TL, TR, BR, BL]` order: the
first pair ordered by increasing `x`, the bottom pair with the larger-`x`
point in position 3, and every top point no lower (in `y`) than every
bottom point. -/
theorem find_corners_canonical_order (contours : List Contour) (pts : List Point)
    (h : findCornersFrom contours = some pts) :
    ∃ raw, findCornersRaw contours = some raw ∧ raw.length = 4 ∧
      pts = orderCorners raw ∧ pts.Perm raw ∧
      ∃ tl tr br bl, pts = [tl, tr, br, bl] ∧
        tl.1 ≤ tr.1 ∧ bl.1 ≤ br.1 ∧
        (∀ p ∈ [tl, tr], ∀ q ∈ [br, bl], p.2 ≤ q.2) := by
  rw [findCornersFrom] at h
  by_cases hemp : contours.isEmpty
  · rw [if_pos hemp] at h
    cases h
  · rw [if_neg hemp, Option.map_eq_some'] at h
    obtain ⟨raw, hraw, hpts⟩ := h
    have h4 : raw.length = 4 := by
      rw [findCornersRaw, Option.map_eq_some'] at hraw
      obtain ⟨c, hfind, hc⟩ := hraw
      have hcand := List.find?_some hfind
      obtain ⟨h4, -⟩ := (isBoardCandidate_iff c).mp hcand
      exact hc ▸ h4
    obtain ⟨hperm, spec⟩ := orderCorners_props raw h4
    subst hpts
    exact ⟨raw, hraw, h4, rfl, hperm, spec⟩

/-- A concrete board-like contour for witnesses: a large quadrilateral. -/
def sampleQuad : List Point := [(50, 50), (50, 500), (500, 500), (500, 50)]

/-- A concrete candidate contour whose approximation is `sampleQuad`. -/
def sampleContour : Contour := ⟨20000, 1800, fun _ => sampleQuad⟩

/-- Witness for C2: on the one-contour list `[sampleContour]` the raw
search succeeds and the characterization produces the accepted
candidate. -/
theorem find_corners_candidate_selection_witness :
    ∃ pre post c, candidateContours [sampleContour] = pre ++ c :: post ∧
      (approxPoly c).length = 4 ∧ c.area > 10000 ∧
      approxPoly sampleContour = approxPoly c ∧
      ∀ c' ∈ pre, ¬((approxPoly c').length = 4 ∧ c'.area > 10000) :=
  (find_corners_candidate_selection [sampleContour]).2.2.2
    (approxPoly sampleContour) (by rfl)

/-- Witness for C3 at the one-contour list `[sampleContour]`. -/
theorem find_corners_canonical_order_witness :
    ∃ raw, findCornersRaw [sampleContour] = some raw ∧ raw.length = 4 ∧
      orderCorners sampleQuad = orderCorners raw ∧
      (orderCorners sampleQuad).Perm raw ∧
      ∃ tl tr br bl, orderCorners sampleQuad = [tl, tr, br, bl] ∧
        tl.1 ≤ tr.1 ∧ bl.1 ≤ br.1 ∧
        (∀ p ∈ [tl, tr], ∀ q ∈ [br, bl], p.2 ≤ q.2) :=
  find_corners_canonical_order [sampleContour] (orderCorners sampleQuad) (by rfl)

/-! ## Images, `warp_board` and `extract_squares` -/

/-- An image: a numpy array indexed `[y, x]`, abstracted as a total pixel
grid with explicit height and width. -/
structure Img where
  height : ℕ
  width : ℕ
  px : ℕ → ℕ → ℚ

/-- The numpy slice `img[y0:y1, x0:x1]`. -/
def subImage (img : Img) (y0 y1 x0 x1 : ℕ) : Img :=
  ⟨y1 - y0, x1 - x0, fun i j => img.px (y0 + i) (x0 + j)⟩

/-- The rank characters `"87654321"` iterated by `extract_squares`. -/
def rankChars : List Char := ['8', '7', '6', '5', '4', '3', '2', '1']

/-- The file characters `"abcdefgh"` iterated by `extract_squares`. -/
def fileChars : List Char := ['a', 'b', 'c', 'd', 'e', 'f', 'g', 'h']

/-- Embeds `BoardDetector.extract_squares`: divide the warped board into 64
square slices, keyed by `f"{file}{rank}"`, with `square_h = height // 8`
and `square_w = width // 8` and slice `[row*square_h : (row+1)*square_h,
col*square_w : (col+1)*square_w]`.  The Python dict is embedded as the
association list in insertion order. -/
def extract_squares (warped : Img) : List (String × Img) :=
  let squareH := warped.height / 8
  let squareW := warped.width / 8
  rankChars.enum.flatMap fun rowRank =>
    fileChars.enum.map fun colFile =>
      (String.mk [colFile.2, rowRank.2],
       subImage warped (rowRank.1 * squareH) ((rowRank.1 + 1) * squareH)
         (colFile.1 * squareW) ((colFile.1 + 1) * squareW))

/-- The algebraic name attached to grid position `(row, col)`. -/
def squareName (row col : ℕ) : String :=
  String.mk [fileChars.getD col ' ', rankChars.getD row ' ']

/-- The 64 algebraic square names in the iteration order of
`extract_squares` (rank 8 down to rank 1, file a to file h). -/
def squareNames : List String :=
  ["a8", "b8", "c8", "d8", "e8", "f8", "g8", "h8",
   "a7", "b7", "c7", "d7", "e7", "f7", "g7", "h7",
   "a6", "b6", "c6", "d6", "e6", "f6", "g6", "h6",
   "a5", "b5", "c5", "d5", "e5", "f5", "g5", "h5",
   "a4", "b4", "c4", "d4", "e4", "f4", "g4", "h4",
   "a3", "b3", "c3", "d3", "e3", "f3", "g3", "h3",
   "a2", "b2", "c2", "d2", "e2", "f2", "g2", "h2",
   "a1", "b1", "c1", "d1", "e1", "f1", "g1", "h1"]

/-- The keys of `extract_squares` are the 64 algebraic names, in order,
independently of the warped image. -/
lemma extract_squares_keys (warped : Img) :
    (extract_squares warped).map Prod.fst = squareNames := by
  rfl

/-- The 64 square names are distinct. -/
lemma squareNames_nodup : squareNames.Nodup := by
  decide

/-- C4: partitioning a rectified square image of side `n` yields exactly 64
tiles; the tile at grid position `(row, col)` is keyed `file(col)rank(row)`
(row 0 ↦ rank 8, …, col 0 ↦ file a, …) and is the slice
`[row*(n/8) : (row+1)*(n/8), col*(n/8) : (col+1)*(n/8)]`, of exactly
`n / 8` pixels on a side; and the row/column boundaries tile the covered
band `[0, 8*(n/8))` contiguously without gaps or overlaps. -/
theorem extract_squares_partition (warped : Img) (n : ℕ)
    (hh : warped.height = n) (hw : warped.width = n) :
    (extract_squares warped).length = 64 ∧
    (∀ row col : Fin 8,
       (extract_squares warped)[(8 * row.val + col.val)]? =
         some (squareName row.val col.val,
           subImage warped (row.val * (n / 8)) ((row.val + 1) * (n / 8))
             (col.val * (n / 8)) ((col.val + 1) * (n / 8))) ∧
       (subImage warped (row.val * (n / 8)) ((row.val + 1) * (n / 8))
           (col.val * (n / 8)) ((col.val + 1) * (n / 8))).height = n / 8 ∧
       (subImage warped (row.val * (n / 8)) ((row.val + 1) * (n / 8))
           (col.val * (n / 8)) ((col.val + 1) * (n / 8))).width = n / 8) ∧
    (∀ y < 8 * (n / 8), ∃! row : Fin 8,
       row.val * (n / 8) ≤ y ∧ y < (row.val + 1) * (n / 8)) := by
  subst hh
  refine ⟨?_, ?_, ?_⟩
  · rfl
  · intro row col
    refine ⟨?_, ?_, ?_⟩
    · fin_cases row <;> fin_cases col <;>
        simp only [extract_squares, rankChars, fileChars, List.enum, hw] <;> rfl
    · show (row.val + 1) * (warped.height / 8) - row.val * (warped.height / 8) =
        warped.height / 8
      rw [Nat.succ_mul]
      omega
    · show (col.val + 1) * (warped.height / 8) - col.val * (warped.height / 8) =
        warped.height / 8
      rw [Nat.succ_mul]
      omega
  · intro y hy
    set s := warped.height / 8 with hsdef
    have hs : 0 < s := by
      rcases Nat.eq_zero_or_pos s with h0 | h0
      · rw [h0] at hy
        omega
      · exact h0
    have hrow : y / s < 8 := (Nat.div_lt_iff_lt_mul hs).mpr (by omega)
    refine ⟨⟨y / s, hrow⟩, ⟨Nat.div_mul_le_self y s, ?_⟩, ?_⟩
    · exact (Nat.div_lt_iff_lt_mul hs).mp (Nat.lt_succ_self (y / s))
    · rintro ⟨r, hr⟩ ⟨hlo, hhi⟩
      have : y / s = r := by
        have h1 : r ≤ y / s := (Nat.le_div_iff_mul_le hs).mpr hlo
        have h2 : y / s < r + 1 := (Nat.div_lt_iff_lt_mul hs).mpr hhi
        omega
      exact Fin.ext this.symm

/-- A concrete 800×800 rectified image for witnesses. -/
def sampleWarped : Img := ⟨800, 800, fun _ _ => 100⟩

/-- Witness for C4 at an 800×800 rectified image. -/
theorem extract_squares_partition_witness :
    (extract_squares sampleWarped).length = 64 ∧
    (∀ row col : Fin 8,
       (extract_squares sampleWarped)[(8 * row.val + col.val)]? =
         some (squareName row.val col.val,
           subImage sampleWarped (row.val * (800 / 8)) ((row.val + 1) * (800 / 8))
             (col.val * (800 / 8)) ((col.val + 1) * (800 / 8))) ∧
       (subImage sampleWarped (row.val * (800 / 8)) ((row.val + 1) * (800 / 8))
           (col.val * (800 / 8)) ((col.val + 1) * (800 / 8))).height = 800 / 8 ∧
       (subImage sampleWarped (row.val * (800 / 8)) ((row.val + 1) * (800 / 8))
           (col.val * (800 / 8)) ((col.val + 1) * (800 / 8))).width = 800 / 8) ∧
    (∀ y < 8 * (800 / 8), ∃! row : Fin 8,
       row.val * (800 / 8) ≤ y ∧ y < (row.val + 1) * (800 / 8)) :=
  extract_squares_partition sampleWarped 800 rfl rfl

/-! ## The pipeline environment and `warp_board` -/

/-- The 3×3 homography produced by `cv2.getPerspectiveTransform`. -/
abbrev PerspectiveMat := Fin 3 → Fin 3 → ℚ

/-- The argument pair handed to `cv2.getPerspectiveTransform`. -/
structure WarpRequest where
  src : List Point
  dst : List Point

/-- The opaque external capabilities the detector calls: contour
extraction from the preprocessed image (`find_corners` lines 175–188
followed by `cv2.findContours`), the perspective-transform pair,
`cv2.resize`, and the bundled piece-classification model
(`pieces_model` + softmax + argmax + `class_names` lookup). -/
structure PipelineEnv where
  contoursOf : Img → List Contour
  getPerspectiveTransform : WarpRequest → PerspectiveMat
  warpPerspective : Img → PerspectiveMat → ℕ → Img
  resize : Img → ℕ → ℕ → Img
  classify : Img → String

/-- The `find_corners` entry of the pipeline: the embedded decision logic applied to
the contours extracted from the (preprocessed) input image. -/
def find_corners (env : PipelineEnv) (image : Img) : Option (List Point) :=
  findCornersFrom (env.contoursOf image)

/-- The destination square handed to `cv2.getPerspectiveTransform`:
`[[0,0], [os-1,0], [os-1,os-1], [0,os-1]]`. -/
def dstPoints (output_size : ℕ) : List Point :=
  [(0, 0), ((output_size : ℚ) - 1, 0),
   ((output_size : ℚ) - 1, (output_size : ℚ) - 1), (0, (output_size : ℚ) - 1)]

/-- Embeds `BoardDetector.warp_board`: compute
`matrix = cv2.getPerspectiveTransform(src, dst)` and return
`cv2.warpPerspective(img, matrix, (output_size, output_size))`.  There is
no branch of any kind: the transform is computed unconditionally. -/
def warp_board (env : PipelineEnv) (image : Img) (corners : List Point)
    (output_size : ℕ) : Img :=
  env.warpPerspective image
    (env.getPerspectiveTransform ⟨corners, dstPoints output_size⟩) output_size

/-- A set of points all lying on one line `a*x + b*y = c`. -/
def collinearPoints (pts : List Point) : Prop :=
  ∃ a b c : ℚ, (a, b) ≠ ((0 : ℚ), (0 : ℚ)) ∧ ∀ p ∈ pts, a * p.1 + b * p.2 = c

/-- Four collinear corner points (all on the diagonal `y = x`). -/
def degenerateCorners : List Point := [(0, 0), (1, 1), (2, 2), (3, 3)]

/-- C5 (code bug): `warp_board` contains no guard against degenerate
corner geometry.  The four collinear points `degenerateCorners` reach the
naive `cv2.getPerspectiveTransform` computation unchanged: for every
environment and image, `warp_board` is exactly the unconditional
transform-then-resample composition. -/
theorem warp_board_reaches_transform_on_collinear :
    collinearPoints degenerateCorners ∧
    ∀ (env : PipelineEnv) (image : Img),
      warp_board env image degenerateCorners 800 =
        env.warpPerspective image
          (env.getPerspectiveTransform ⟨degenerateCorners, dstPoints 800⟩) 800 := by
  constructor
  · refine ⟨1, -1, 0, by norm_num, ?_⟩
    intro p hp
    simp only [degenerateCorners, List.mem_cons, List.not_mem_nil, or_false] at hp
    rcases hp with rfl | rfl | rfl | rfl <;> norm_num
  · intro env image
    rfl

/-! ## Preprocessing never downscales (C6) -/

/-- Embeds `BoardDetector.MAX_DIMENSION`: "Max width or height for processing". -/
def MAX_DIMENSION : ℕ := 1024

/-- The preprocessing chain of `find_corners` (lines 175–184): grayscale
conversion, Gaussian blur, Otsu threshold, Canny edges, dilation — note
the absence of any resizing stage; `MAX_DIMENSION` is referenced nowhere
in the repository. -/
def preprocessForCorners (cvtColor blur threshold canny dilate : Img → Img)
    (image : Img) : Img :=
  dilate (canny (threshold (blur (cvtColor image))))

/-- C6 (code bug): under the (true) facts that the five OpenCV stages used
by `find_corners` each preserve image dimensions, the preprocessed image
always keeps the input dimensions.  In particular a 2048×1536 input, whose
height exceeds `MAX_DIMENSION = 1024`, is processed at full size: no
downscaling stage exists. -/
theorem preprocess_never_downscales
    (cvtColor blur threshold canny dilate : Img → Img)
    (hcvt : ∀ a, (cvtColor a).height = a.height ∧ (cvtColor a).width = a.width)
    (hblur : ∀ a, (blur a).height = a.height ∧ (blur a).width = a.width)
    (hthr : ∀ a, (threshold a).height = a.height ∧ (threshold a).width = a.width)
    (hcan : ∀ a, (canny a).height = a.height ∧ (canny a).width = a.width)
    (hdil : ∀ a, (dilate a).height = a.height ∧ (dilate a).width = a.width) :
    (∀ image : Img,
       (preprocessForCorners cvtColor blur threshold canny dilate image).height =
         image.height ∧
       (preprocessForCorners cvtColor blur threshold canny dilate image).width =
         image.width) ∧
    ∀ image : Img, image.height = 2048 → image.width = 1536 →
      image.height > MAX_DIMENSION ∧
      (preprocessForCorners cvtColor blur threshold canny dilate image).height =
        2048 ∧
      (preprocessForCorners cvtColor blur threshold canny dilate image).width =
        1536 := by
  have hdims : ∀ image : Img,
      (preprocessForCorners cvtColor blur threshold canny dilate image).height =
        image.height ∧
      (preprocessForCorners cvtColor blur threshold canny dilate image).width =
        image.width := by
    intro image
    unfold preprocessForCorners
    constructor
    · rw [(hdil _).1, (hcan _).1, (hthr _).1, (hblur _).1, (hcvt _).1]
    · rw [(hdil _).2, (hcan _).2, (hthr _).2, (hblur _).2, (hcvt _).2]
  refine ⟨hdims, ?_⟩
  intro image hh hw
  refine ⟨by rw [hh]; norm_num [MAX_DIMENSION], ?_, ?_⟩
  · rw [(hdims image).1, hh]
  · rw [(hdims image).2, hw]

/-- A concrete oversized (2048×1536) input image. -/
def oversizedImage : Img := ⟨2048, 1536, fun _ _ => 0⟩

/-- Witness for C6: with identity stage functions (dimension-preserving),
the oversized image is processed at full size. -/
theorem preprocess_never_downscales_witness :
    oversizedImage.height > MAX_DIMENSION ∧
    (preprocessForCorners id id id id id oversizedImage).height = 2048 ∧
    (preprocessForCorners id id id id id oversizedImage).width = 1536 :=
  (preprocess_never_downscales id id id id id
      (fun _ => ⟨rfl, rfl⟩) (fun _ => ⟨rfl, rfl⟩) (fun _ => ⟨rfl, rfl⟩)
      (fun _ => ⟨rfl, rfl⟩) (fun _ => ⟨rfl, rfl⟩)).2
    oversizedImage rfl rfl

/-! ## Piece classification and board assembly -/

/-- Piece colors (`chess.WHITE` / `chess.BLACK`). -/
inductive PieceColor where
  | white
  | black
deriving DecidableEq

/-- Piece kinds (`chess.PAWN` … `chess.KING`). -/
inductive PieceKind where
  | pawn
  | knight
  | bishop
  | rook
  | queen
  | king
deriving DecidableEq

/-- Embeds `chess.Piece(kind, color)`. -/
structure Piece where
  kind : PieceKind
  color : PieceColor
deriving DecidableEq

/-- The 13 class names of the bundled pieces model: the empty-square label
`"xx"` plus the 12 piece labels used as keys of `piece_map`. -/
def validLabels : List String :=
  ["xx", "wP", "wN", "wB", "wR", "wQ", "wK",
   "bP", "bN", "bB", "bR", "bQ", "bK"]

/-- The `piece_map` dict of `load_board_from_image`, embedded as a lookup
that is `none` outside its 12 keys (a Python `dict[...]` access on a
missing key raises `KeyError`). -/
def piece_map (s : String) : Option Piece :=
  if s = "wP" then some ⟨.pawn, .white⟩
  else if s = "wN" then some ⟨.knight, .white⟩
  else if s = "wB" then some ⟨.bishop, .white⟩
  else if s = "wR" then some ⟨.rook, .white⟩
  else if s = "wQ" then some ⟨.queen, .white⟩
  else if s = "wK" then some ⟨.king, .white⟩
  else if s = "bP" then some ⟨.pawn, .black⟩
  else if s = "bN" then some ⟨.knight, .black⟩
  else if s = "bB" then some ⟨.bishop, .black⟩
  else if s = "bR" then some ⟨.rook, .black⟩
  else if s = "bQ" then some ⟨.queen, .black⟩
  else if s = "bK" then some ⟨.king, .black⟩
  else none

/-- Embeds `piece_image.astype(np.float32) / 255.0`. -/
def scaleTo01 (img : Img) : Img :=
  ⟨img.height, img.width, fun i j => img.px i j / 255⟩

/-- The tensor handed to the classification model in `detect_piece`: the
tile scaled to `[0,1]` and then resized to 32×32 by `cv2.resize`. -/
def classifierInput (env : PipelineEnv) (tile : Img) : Img :=
  env.resize (scaleTo01 tile) 32 32

/-- Embeds `BoardDetector.detect_piece`: normalize the tile and invoke the model
(logits, softmax, argmax and `class_names` lookup are all folded into the
opaque `classify`). -/
def detect_piece (env : PipelineEnv) (tile : Img) : String :=
  env.classify (classifierInput env tile)

/-- A board state: the piece placements performed by `set_piece_at`, keyed
by algebraic square name (the bijective `chess.parse_square` renaming is
left implicit). -/
abbrev Board := List (String × Piece)

/-- The square-classification loop of `load_board_from_image`: iterate the
squares, classify each, skip `"xx"`, place `piece_map[piece_class]`
otherwise; a label outside `piece_map` raises (`KeyError`), embedded as
`Except.error`. -/
def assembleFrom (env : PipelineEnv) (board : Board) :
    List (String × Img) → Except Unit Board
  | [] => Except.ok board
  | sq :: rest =>
      let piece_class := detect_piece env sq.2
      if piece_class = "xx" then assembleFrom env board rest
      else
        match piece_map piece_class with
        | some p => assembleFrom env (board ++ [(sq.1, p)]) rest
        | none => Except.error ()

/-- Embeds `BoardDetector.load_board_from_image`: find corners (returning `None`
as the no-board signal), warp to an 800×800 canvas, partition, and fold
the 64 classifications into a board. -/
def load_board_from_image (env : PipelineEnv) (image : Img) :
    Except Unit (Option Board) :=
  match find_corners env image with
  | none => Except.ok none
  | some corners =>
      match assembleFrom env []
          (extract_squares (warp_board env image corners 800)) with
      | Except.ok board => Except.ok (some board)
      | Except.error e => Except.error e

/-- The placement a single square contributes to the final board. -/
def placementOf (env : PipelineEnv) (sq : String × Img) : Option (String × Piece) :=
  if detect_piece env sq.2 = "xx" then none
  else (piece_map (detect_piece env sq.2)).map fun p => (sq.1, p)

/-- Valid non-empty labels are in `piece_map`. -/
lemma piece_map_isSome_of_valid (s : String) (hs : s ∈ validLabels)
    (hxx : s ≠ "xx") : (piece_map s).isSome := by
  simp only [validLabels, List.mem_cons, List.not_mem_nil, or_false] at hs
  rcases hs with rfl | rfl | rfl | rfl | rfl | rfl | rfl | rfl | rfl | rfl | rfl | rfl | rfl
  · exact absurd rfl hxx
  all_goals rfl

/-- Under valid classifier labels the assembly loop never raises and
appends exactly the non-empty placements, in order. -/
lemma assembleFrom_spec (env : PipelineEnv) (l : List (String × Img))
    (hvalid : ∀ sq ∈ l, detect_piece env sq.2 ∈ validLabels) :
    ∀ board : Board,
      assembleFrom env board l = Except.ok (board ++ l.filterMap (placementOf env)) := by
  induction l with
  | nil => intro board; simp [assembleFrom]
  | cons sq rest ih =>
      intro board
      have hsq := hvalid sq (List.mem_cons_self sq rest)
      have hrest : ∀ x ∈ rest, detect_piece env x.2 ∈ validLabels :=
        fun x hx => hvalid x (List.mem_cons_of_mem sq hx)
      by_cases hxx : detect_piece env sq.2 = "xx"
      · rw [show assembleFrom env board (sq :: rest) = assembleFrom env board rest by
          simp [assembleFrom, hxx]]
        rw [ih hrest board]
        simp [placementOf, hxx]
      · obtain ⟨p, hp⟩ := Option.isSome_iff_exists.mp
          (piece_map_isSome_of_valid _ hsq hxx)
        rw [show assembleFrom env board (sq :: rest) =
            assembleFrom env (board ++ [(sq.1, p)]) rest by
          simp [assembleFrom, hxx, hp]]
        rw [ih hrest (board ++ [(sq.1, p)])]
        simp [placementOf, hxx, hp, List.append_assoc]

/-- Under valid classifier labels, a successful corner search makes
`load_board_from_image` return the fully assembled board. -/
lemma load_board_success (env : PipelineEnv) (image : Img) (corners : List Point)
    (hvalid : ∀ t, env.classify t ∈ validLabels)
    (hc : find_corners env image = some corners) :
    load_board_from_image env image =
      Except.ok (some ((extract_squares (warp_board env image corners 800)).filterMap
        (placementOf env))) := by
  unfold load_board_from_image
  rw [hc]
  show (match assembleFrom env []
      (extract_squares (warp_board env image corners 800)) with
    | Except.ok board => Except.ok (some board)
    | Except.error e => Except.error e) =
    Except.ok (some ((extract_squares (warp_board env image corners 800)).filterMap
      (placementOf env)))
  rw [assembleFrom_spec env _ (fun sq _ => hvalid (classifierInput env sq.2)) []]
  rfl

/-- C1: `load_board_from_image` is all-or-nothing.  Given that the
classifier only emits its 13 bundled class names, a failed corner search
yields the distinguishable null result `Except.ok none` (not an error);
a successful corner search yields a complete board assembled from all 64
square tiles (the tile keys are exactly the 64 algebraic names); and no
input ever produces an internal error. -/
theorem load_board_all_or_nothing (env : PipelineEnv) (image : Img)
    (hvalid : ∀ t, env.classify t ∈ validLabels) :
    (find_corners env image = none →
       load_board_from_image env image = Except.ok none) ∧
    (∀ corners, find_corners env image = some corners →
       load_board_from_image env image =
         Except.ok (some ((extract_squares (warp_board env image corners 800)).filterMap
           (placementOf env))) ∧
       (extract_squares (warp_board env image corners 800)).map Prod.fst = squareNames ∧
       squareNames.length = 64) ∧
    (∀ e : Unit, load_board_from_image env image ≠ Except.error e) := by
  refine ⟨?_, ?_, ?_⟩
  · intro hnone
    unfold load_board_from_image
    rw [hnone]
  · intro corners hc
    exact ⟨load_board_success env image corners hvalid hc,
      extract_squares_keys _, rfl⟩
  · intro e
    cases hc : find_corners env image with
    | none =>
        unfold load_board_from_image
        rw [hc]
        simp
    | some corners =>
        rw [load_board_success env image corners hvalid hc]
        simp

/-- C8: the pipeline is deterministic — running `load_board_from_image`
twice on the same image with the same fixed environment (model, OpenCV
kernels) produces the same outcome. -/
theorem load_board_deterministic (env : PipelineEnv) (image1 image2 : Img)
    (h : image1 = image2) :
    load_board_from_image env image1 = load_board_from_image env image2 := by
  rw [h]

/-- Every tile produced by `extract_squares` is a slice of the warped
board. -/
lemma mem_extract_squares_subImage (w : Img) (sq : String × Img)
    (h : sq ∈ extract_squares w) :
    ∃ y0 y1 x0 x1, sq.2 = subImage w y0 y1 x0 x1 := by
  simp only [extract_squares, List.mem_flatMap, List.mem_map] at h
  obtain ⟨rr, hrr, cf, hcf, heq⟩ := h
  exact ⟨_, _, _, _, (congrArg Prod.snd heq).symm⟩

/-- C7: on every successful request the classifier is invoked through
`detect_piece` exactly once per square of the 64-entry square list (whose
keys are distinct), and each invocation receives the tile scaled to
`[0,1]` and resized to 32×32: given that `cv2.resize` honors the requested
geometry and maps `[0,1]`-valued images to `[0,1]`-valued images and that
the warped board carries 8-bit values in `[0,255]`, every classifier input
is a 32×32 image with all pixels in `[0,1]`. -/
theorem classifier_once_per_square_normalized (env : PipelineEnv) (image : Img)
    (corners : List Point)
    (hc : find_corners env image = some corners)
    (hrh : ∀ a w h, (env.resize a w h).height = h)
    (hrw : ∀ a w h, (env.resize a w h).width = w)
    (hrange : ∀ a w h, (∀ i j, 0 ≤ a.px i j ∧ a.px i j ≤ 1) →
       ∀ i j, 0 ≤ (env.resize a w h).px i j ∧ (env.resize a w h).px i j ≤ 1)
    (hwarp : ∀ i j, 0 ≤ (warp_board env image corners 800).px i j ∧
       (warp_board env image corners 800).px i j ≤ 255) :
    (extract_squares (warp_board env image corners 800)).length = 64 ∧
    ((extract_squares (warp_board env image corners 800)).map Prod.fst).Nodup ∧
    load_board_from_image env image =
      Except.map some (assembleFrom env []
        (extract_squares (warp_board env image corners 800))) ∧
    ∀ sq ∈ extract_squares (warp_board env image corners 800),
      detect_piece env sq.2 = env.classify (classifierInput env sq.2) ∧
      (classifierInput env sq.2).height = 32 ∧
      (classifierInput env sq.2).width = 32 ∧
      ∀ i j, 0 ≤ (classifierInput env sq.2).px i j ∧
        (classifierInput env sq.2).px i j ≤ 1 := by
  refine ⟨rfl, ?_, ?_, ?_⟩
  · rw [extract_squares_keys]
    exact squareNames_nodup
  · unfold load_board_from_image
    rw [hc]
    show (match assembleFrom env []
        (extract_squares (warp_board env image corners 800)) with
      | Except.ok board => Except.ok (some board)
      | Except.error e => Except.error e) =
      Except.map some (assembleFrom env []
        (extract_squares (warp_board env image corners 800)))
    cases assembleFrom env [] (extract_squares (warp_board env image corners 800)) with
    | ok b => rfl
    | error e => rfl
  · intro sq hsq
    obtain ⟨y0, y1, x0, x1, htile⟩ :=
      mem_extract_squares_subImage _ sq hsq
    have htile01 : ∀ i j, 0 ≤ (scaleTo01 sq.2).px i j ∧ (scaleTo01 sq.2).px i j ≤ 1 := by
      intro i j
      rw [htile]
      simp only [scaleTo01, subImage]
      have h255 := hwarp (y0 + i) (x0 + j)
      constructor
      · exact div_nonneg h255.1 (by norm_num)
      · rw [div_le_one (by norm_num)]
        exact h255.2
    exact ⟨rfl, hrh _ _ _, hrw _ _ _, hrange _ _ _ htile01⟩

/-- C10: a square of the returned board holds a piece exactly when the
classifier produced a non-`"xx"` label on that square's tile, the placed
piece being the `piece_map` image of that label; and `piece_map` is
undefined (a raising dict lookup, embedded as `none`) on every label
outside the 13-value set. -/
theorem board_pieces_iff_classifier (env : PipelineEnv) (image : Img)
    (corners : List Point) (board : Board)
    (hvalid : ∀ t, env.classify t ∈ validLabels)
    (hc : find_corners env image = some corners)
    (hb : load_board_from_image env image = Except.ok (some board)) :
    (∀ name p, (name, p) ∈ board ↔
       ∃ sq ∈ extract_squares (warp_board env image corners 800),
         sq.1 = name ∧ detect_piece env sq.2 ≠ "xx" ∧
         piece_map (detect_piece env sq.2) = some p) ∧
    (∀ s : String, s ∉ validLabels → piece_map s = none) := by
  constructor
  · have hload := load_board_success env image corners hvalid hc
    rw [hload] at hb
    have hboard : board =
        (extract_squares (warp_board env image corners 800)).filterMap
          (placementOf env) := by
      injection hb with hb'
      injection hb' with hb''
      exact hb''.symm
    intro name p
    rw [hboard, List.mem_filterMap]
    constructor
    · rintro ⟨sq, hsq, hpl⟩
      refine ⟨sq, hsq, ?_⟩
      by_cases hxx : detect_piece env sq.2 = "xx"
      · simp [placementOf, hxx] at hpl
      · simp only [placementOf, if_neg hxx, Option.map_eq_some'] at hpl
        obtain ⟨q, hq, heq⟩ := hpl
        injection heq with h1 h2
        exact ⟨h1, hxx, by rw [hq, h2]⟩
    · rintro ⟨sq, hsq, hname, hxx, hpm⟩
      refine ⟨sq, hsq, ?_⟩
      simp only [placementOf, if_neg hxx, hpm, Option.map_some']
      rw [hname]
  · intro s hs
    simp only [validLabels, List.mem_cons, List.not_mem_nil, or_false, not_or] at hs
    obtain ⟨-, h1, h2, h3, h4, h5, h6, h7, h8, h9, h10, h11, h12⟩ := hs
    simp [piece_map, h1, h2, h3, h4, h5, h6, h7, h8, h9, h10, h11, h12]

/-! ## Concrete pipeline environment for witnesses -/

/-- A concrete environment: one large quadrilateral contour, a constant
warp kernel producing a uniform 8-bit canvas, a geometry-honoring resize,
and a classifier that always reports an empty square. -/
def sampleEnv : PipelineEnv where
  contoursOf := fun _ => [sampleContour]
  getPerspectiveTransform := fun _ => fun _ _ => 0
  warpPerspective := fun _ _ os => ⟨os, os, fun _ _ => 100⟩
  resize := fun a w h => ⟨h, w, fun _ _ => a.px 0 0⟩
  classify := fun _ => "xx"

/-- A concrete 1000×1000 input photograph. -/
def sampleImage : Img := ⟨1000, 1000, fun _ _ => 100⟩

/-- Witness for C1: on the sample environment the corner search succeeds
and the full assembled board is returned. -/
theorem load_board_all_or_nothing_witness :
    load_board_from_image sampleEnv sampleImage =
      Except.ok (some ((extract_squares (warp_board sampleEnv sampleImage
        (orderCorners sampleQuad) 800)).filterMap (placementOf sampleEnv))) ∧
    (extract_squares (warp_board sampleEnv sampleImage
      (orderCorners sampleQuad) 800)).map Prod.fst = squareNames ∧
    squareNames.length = 64 :=
  (load_board_all_or_nothing sampleEnv sampleImage
      (by intro t; simp [sampleEnv, validLabels])).2.1
    (orderCorners sampleQuad) (by rfl)

/-- Witness for C8 at the sample environment and image. -/
theorem load_board_deterministic_witness :
    load_board_from_image sampleEnv sampleImage =
      load_board_from_image sampleEnv sampleImage :=
  load_board_deterministic sampleEnv sampleImage sampleImage rfl

/-- Witness for C7 at the sample environment and image. -/
theorem classifier_once_per_square_normalized_witness :
    (extract_squares (warp_board sampleEnv sampleImage
      (orderCorners sampleQuad) 800)).length = 64 ∧
    ((extract_squares (warp_board sampleEnv sampleImage
      (orderCorners sampleQuad) 800)).map Prod.fst).Nodup ∧
    load_board_from_image sampleEnv sampleImage =
      Except.map some (assembleFrom sampleEnv []
        (extract_squares (warp_board sampleEnv sampleImage
          (orderCorners sampleQuad) 800))) ∧
    ∀ sq ∈ extract_squares (warp_board sampleEnv sampleImage
        (orderCorners sampleQuad) 800),
      detect_piece sampleEnv sq.2 = sampleEnv.classify (classifierInput sampleEnv sq.2) ∧
      (classifierInput sampleEnv sq.2).height = 32 ∧
      (classifierInput sampleEnv sq.2).width = 32 ∧
      ∀ i j, 0 ≤ (classifierInput sampleEnv sq.2).px i j ∧
        (classifierInput sampleEnv sq.2).px i j ≤ 1 :=
  classifier_once_per_square_normalized sampleEnv sampleImage
    (orderCorners sampleQuad) (by rfl)
    (fun _ _ _ => rfl) (fun _ _ _ => rfl)
    (fun a w h hr _ _ => hr 0 0)
    (by intro i j; constructor <;> norm_num [warp_board, sampleEnv])

/-- Witness for C10: the sample classifier reports every square empty, so
the returned board is the empty placement list and the characterization
applies to it. -/
theorem board_pieces_iff_classifier_witness :
    (∀ name p, (name, p) ∈ ([] : Board) ↔
       ∃ sq ∈ extract_squares (warp_board sampleEnv sampleImage
           (orderCorners sampleQuad) 800),
         sq.1 = name ∧ detect_piece sampleEnv sq.2 ≠ "xx" ∧
         piece_map (detect_piece sampleEnv sq.2) = some p) ∧
    (∀ s : String, s ∉ validLabels → piece_map s = none) :=
  board_pieces_iff_classifier sampleEnv sampleImage (orderCorners sampleQuad) []
    (by intro t; simp [sampleEnv, validLabels]) (by rfl) (by rfl)

end ScanMate
